import Mathlib

/-!
# Verification of the bigfilereader label store

Shallow embedding of `src/main.go`: the parallel line scanner
(`scanFilePart`, `scanFile` and its stitch pass, with `strings.TrimSpace`
modelled in full — ASCII fast path, UTF-8 decoding and the `unicode.IsSpace`
fallback — by `trimSpaceGo`), the identifier codec
(`mobile2bytes` over `strconv.ParseUint` and `binary.LittleEndian.PutUint64`),
the prefix-range machinery of `FindLabelsByMobile` (`keyUpperBound`), and the
write path (`Append`/`Set` ops consumed by the per-partition worker of `Open`).

Bytes are modelled as `Nat` (values `< 256` where a claim needs it), files and
Go strings as `List Nat` of their bytes, and a partition's pebble instance as
an association list of key/value pairs (newest first).
-/

namespace BigFileReader

/-- Bytes are unbounded naturals here; claims that depend on byte arithmetic
carry explicit `< 256` bounds.  This is the terminator byte `scanFilePart`
scans for. -/
def newline : Nat := 10

/-- `IsSpace` from src/main.go: `' '`, `'\t'`, `'\r'`, `'\v'`, `'\f'`, `'\n'`
(bytes 32, 9, 13, 11, 12, 10). -/
def IsSpace (b : Nat) : Bool :=
  b == 32 || b == 9 || b == 13 || b == 11 || b == 12 || b == 10

/-- `unicode.IsSpace` on a decoded code point: the six ASCII whitespace
characters, NEL (U+0085) and NBSP (U+00A0) from Latin-1, and the remaining
White_Space code points U+1680, U+2000-U+200A, U+2028, U+2029, U+202F,
U+205F, U+3000. -/
def isSpaceRune (r : Nat) : Bool :=
  r == 9 || r == 10 || r == 11 || r == 12 || r == 13 || r == 32 ||
    r == 0x85 || r == 0xA0 || r == 0x1680 ||
    (0x2000 ≤ r && r ≤ 0x200A) ||
    r == 0x2028 || r == 0x2029 || r == 0x202F || r == 0x205F || r == 0x3000

/-- `utf8.RuneStart`: every byte that is not a UTF-8 continuation byte. -/
def runeStart (b : Nat) : Bool := !(0x80 ≤ b && b ≤ 0xBF)

/-- `utf8.DecodeRune`: decode the first code point of the byte list, with
Go's exact acceptance windows for the second byte (overlong and surrogate
rejection: `0xE0` needs `0xA0..0xBF`, `0xED` needs `0x80..0x9F`, `0xF0`
needs `0x90..0xBF`, `0xF4` needs `0x80..0x8F`) and `(RuneError, 1)` =
`(0xFFFD, 1)` on every malformed or truncated encoding (`(0xFFFD, 0)` on
empty input). -/
def decodeRune : List Nat → Nat × Nat
  | [] => (0xFFFD, 0)
  | b0 :: rest =>
    if b0 < 0x80 then (b0, 1)
    else if b0 < 0xC2 then (0xFFFD, 1)
    else if b0 ≤ 0xDF then
      match rest with
      | b1 :: _ =>
        if 0x80 ≤ b1 ∧ b1 ≤ 0xBF then ((b0 % 0x20) * 0x40 + b1 % 0x40, 2)
        else (0xFFFD, 1)
      | [] => (0xFFFD, 1)
    else if b0 ≤ 0xEF then
      match rest with
      | b1 :: rest2 =>
        if (if b0 = 0xE0 then 0xA0 else 0x80) ≤ b1 ∧
            b1 ≤ (if b0 = 0xED then 0x9F else 0xBF) then
          match rest2 with
          | b2 :: _ =>
            if 0x80 ≤ b2 ∧ b2 ≤ 0xBF then
              ((b0 % 0x10) * 0x1000 + b1 % 0x40 * 0x40 + b2 % 0x40, 3)
            else (0xFFFD, 1)
          | [] => (0xFFFD, 1)
        else (0xFFFD, 1)
      | [] => (0xFFFD, 1)
    else if b0 ≤ 0xF4 then
      match rest with
      | b1 :: rest2 =>
        if (if b0 = 0xF0 then 0x90 else 0x80) ≤ b1 ∧
            b1 ≤ (if b0 = 0xF4 then 0x8F else 0xBF) then
          match rest2 with
          | b2 :: rest3 =>
            if 0x80 ≤ b2 ∧ b2 ≤ 0xBF then
              match rest3 with
              | b3 :: _ =>
                if 0x80 ≤ b3 ∧ b3 ≤ 0xBF then
                  ((b0 % 8) * 0x40000 + b1 % 0x40 * 0x1000 +
                    b2 % 0x40 * 0x40 + b3 % 0x40, 4)
                else (0xFFFD, 1)
              | [] => (0xFFFD, 1)
            else (0xFFFD, 1)
          | [] => (0xFFFD, 1)
        else (0xFFFD, 1)
      | [] => (0xFFFD, 1)
    else (0xFFFD, 1)

/-- `utf8.DecodeLastRune`: decode the final code point.  A final ASCII byte
decodes alone; otherwise at most three bytes before it are scanned backward
for a rune start (Go's `lim = len - UTFMax` guard; past it Go decodes a
window a rune cannot fill, yielding the same `(0xFFFD, 1)`); the found
window decodes with `decodeRune` and must be consumed exactly, else
`(0xFFFD, 1)`. -/
def decodeLastRune (s : List Nat) : Nat × Nat :=
  match s.reverse with
  | [] => (0xFFFD, 0)
  | last :: revPrev =>
    if last < 0x80 then (last, 1)
    else
      let window := revPrev.take 3
      let d := (window.takeWhile (fun b => !runeStart b)).length
      if d < window.length then
        let rd := decodeRune ((last :: revPrev).take (d + 2)).reverse
        if rd.2 = d + 2 then rd else (0xFFFD, 1)
      else (0xFFFD, 1)

/-- The loop of `strings.TrimLeftFunc(s, unicode.IsSpace)`: strip leading
space code points.  Every stripped code point consumes at least one byte
(`decodeRune` returns size `≥ 1` on nonempty input), so `s.length` rounds of
fuel are never exhausted: the zero-fuel arm is unreachable from
`trimLeftFuncSpace`, and the fuel only makes the recursion structural. -/
def trimLeftLoop : Nat → List Nat → List Nat
  | _, [] => []
  | 0, s => s
  | fuel + 1, b :: rest =>
    if isSpaceRune (decodeRune (b :: rest)).1 then
      trimLeftLoop fuel ((b :: rest).drop (decodeRune (b :: rest)).2)
    else b :: rest

/-- `strings.TrimLeftFunc(s, unicode.IsSpace)`. -/
def trimLeftFuncSpace (s : List Nat) : List Nat := trimLeftLoop s.length s

/-- The loop of `strings.TrimRightFunc(s, unicode.IsSpace)`: strip trailing
space code points (same fuel argument as `trimLeftLoop`, with
`decodeLastRune` returning size `≥ 1` on nonempty input). -/
def trimRightLoop : Nat → List Nat → List Nat
  | _, [] => []
  | 0, s => s
  | fuel + 1, b :: rest =>
    if isSpaceRune (decodeLastRune (b :: rest)).1 then
      trimRightLoop fuel
        ((b :: rest).take ((b :: rest).length - (decodeLastRune (b :: rest)).2))
    else b :: rest

/-- `strings.TrimRightFunc(s, unicode.IsSpace)`. -/
def trimRightFuncSpace (s : List Nat) : List Nat := trimRightLoop s.length s

/-- The backward scan of `strings.TrimSpace`, over the reversed remaining
bytes: drop trailing ASCII whitespace; fall back to the rune-aware right
trim of the bytes so far kept on meeting a byte `≥ 0x80`; stop at an ASCII
non-space.  Returns the result in forward order. -/
def trimRightStop : List Nat → List Nat
  | [] => []
  | c :: rest =>
    if 0x80 ≤ c then trimRightFuncSpace (c :: rest).reverse
    else if IsSpace c then trimRightStop rest
    else (c :: rest).reverse

/-- `strings.TrimSpace`, in full: the forward ASCII fast path (the six bytes
of `IsSpace` are exactly Go's `asciiSpace` table), falling back to
`TrimFunc(s[start:], unicode.IsSpace)` — left then right rune-aware trim —
on the first byte `≥ 0x80`; after the forward scan stops at an ASCII
non-space, the backward ASCII scan with its own rune-aware fallback. -/
def trimSpaceGo : List Nat → List Nat
  | [] => []
  | c :: rest =>
    if 0x80 ≤ c then trimRightFuncSpace (trimLeftFuncSpace (c :: rest))
    else if IsSpace c then trimSpaceGo rest
    else trimRightStop (c :: rest).reverse

/-- The trimming operation the claim and specification describe: removal of
leading and trailing bytes from the whitespace set the specification names
(space, tab, CR, LF, vertical and form feed).  Used on the specification
side only (`trimmedRawLines`); the program model calls the full
`trimSpaceGo`, which agrees with this on all-ASCII content
(`trimSpaceGo_ascii`) but additionally trims multi-byte Unicode
whitespace. -/
def trimSpace (l : List Nat) : List Nat :=
  ((l.dropWhile IsSpace).reverse.dropWhile IsSpace).reverse

/-- `Chop` from src/main.go: per-range boundary state. -/
structure Chop where
  head : List Nat
  tail : List Nat
  linebreak : Bool
deriving DecidableEq, Repr

/-- The byte loop of `scanFilePart` (src/main.go lines 86-129), as a direct
recursion over the bytes of the worker's range.  State: `lineStarted`,
`head` (bytes collected before the first terminator), `line` (current
in-progress line), `linebreak` (a terminator was seen).  Returns the lines
delivered to the callback in order, and the final `Chop`
(`head`, `tail := line`, `linebreak`).  The 16KiB buffered reads of the
source deliver exactly the bytes of `[start, end)` in order, so they are
abstracted to the byte list itself; the emitted line passes through
`strings.TrimSpace`, modelled in full by `trimSpaceGo`. -/
def scanPartGo (lineStarted : Bool) (head line : List Nat) (linebreak : Bool) :
    List Nat → List (List Nat) × Chop
  | [] => ([], ⟨head, line, linebreak⟩)
  | b :: bs =>
    if IsSpace b then
      if b = newline then
        if line.isEmpty then
          scanPartGo true head [] true bs
        else
          let rest := scanPartGo true head [] true bs
          (trimSpaceGo line :: rest.1, rest.2)
      else
        scanPartGo lineStarted head line linebreak bs
    else if lineStarted then
      scanPartGo lineStarted head (line ++ [b]) linebreak bs
    else
      scanPartGo lineStarted (head ++ [b]) line linebreak bs

/-- `scanFilePart` from src/main.go applied to the bytes of its range:
initial state has no line started, empty head/line, no terminator seen. -/
def scanFilePart (bs : List Nat) : List (List Nat) × Chop :=
  scanPartGo false [] [] false bs

/-- The stitch pass of `scanFile` (src/main.go lines 183-202), recursing over
the per-range `Chop` records with the carry buffer `line`. -/
def stitchGo (line : List Nat) : List Chop → List (List Nat)
  | [] => if line.isEmpty then [] else [line]
  | c :: cs =>
    let l1 := line ++ c.head
    if c.linebreak then
      if l1.isEmpty then stitchGo c.tail cs
      else l1 :: stitchGo c.tail cs
    else
      stitchGo (l1 ++ c.tail) cs

/-- Scan a file already decomposed into consecutive byte ranges: the in-range
lines of every part (in part order, as in the `syncMode` path of `scanFile`),
followed by the stitch pass over the chops, with the stitch buffer seeded by
`pending` (the source seeds it empty; the generalisation is for proofs). -/
def scanPartsFrom (pending : List Nat) (parts : List (List Nat)) : List (List Nat) :=
  let results := parts.map scanFilePart
  (results.map Prod.fst).flatten ++ stitchGo pending (results.map Prod.snd)

/-- `scanFile`'s delivery over a part decomposition, stitch buffer initially
empty (src/main.go line 183: `var line []byte`). -/
def scanParts (parts : List (List Nat)) : List (List Nat) :=
  scanPartsFrom [] parts

/-- The byte ranges computed by `scanFile` (src/main.go lines 154-166):
`workerSize := fileSize / numWorkers`, range `i` is
`[i*workerSize, i*workerSize + workerSize)` clamped to `fileSize`. -/
def ranges (fileSize numWorkers : Nat) : List (Nat × Nat) :=
  let workerSize := fileSize / numWorkers
  (List.range numWorkers).map fun i =>
    (i * workerSize, min (i * workerSize + workerSize) fileSize)

/-- The bytes of the file in range `[r.1, r.2)`. -/
def slice (file : List Nat) (r : Nat × Nat) : List Nat :=
  (file.drop r.1).take (r.2 - r.1)

/-- `scanFile` from src/main.go: split the file into `numWorkers` ranges, scan
each with `scanFilePart`, then run the stitch pass; the lines delivered to the
callback (in the order of the sequential `syncMode` path; the async path
delivers the same lines, workers interleaved).  `numWorkers` is
`runtime.NumCPU()` in the source, taken as a parameter here. -/
def scanFile (file : List Nat) (numWorkers : Nat) : List (List Nat) :=
  scanParts ((ranges file.length numWorkers).map (slice file))

/-- Split a byte list at every `newline` byte; always at least one segment,
segments do not contain the terminator.  The raw lines of a file are its
segments (a trailing terminator contributes a final empty segment). -/
def splitNL : List Nat → List (List Nat)
  | [] => [[]]
  | b :: bs =>
    if b = newline then [] :: splitNL bs
    else
      match splitNL bs with
      | [] => [[b]]
      | s :: ss => (b :: s) :: ss

/-- Remove every whitespace byte (interior included). -/
def clean (l : List Nat) : List Nat := l.filter (fun b => !IsSpace b)

/-- The nonempty whitespace-stripped raw lines of a byte stream: what the
scanner actually delivers (up to order), see `scanParts_perm_cleanLines`. -/
def cleanLines (bs : List Nat) : List (List Nat) :=
  ((splitNL bs).map clean).filter (fun l => !l.isEmpty)

/-- The raw lines of a file with only surrounding whitespace trimmed, empty
results dropped — the delivery the specification describes. -/
def trimmedRawLines (bs : List Nat) : List (List Nat) :=
  ((splitNL bs).map trimSpace).filter (fun l => !l.isEmpty)

/-- The lines a worker in started state (a terminator already seen) delivers
while processing the remaining segments, and the unterminated fragment it
leaves behind: for each segment except the last, its non-space bytes pass
through `strings.TrimSpace` and are delivered when nonempty before the trim;
the stripped last segment is the leftover fragment. -/
def emitsFrom : List Nat → List (List Nat) → List (List Nat) × List Nat
  | line, [] => ([], line)
  | line, [s] => ([], line ++ clean s)
  | line, s :: s' :: ss =>
    let l := line ++ clean s
    let rest := emitsFrom [] (s' :: ss)
    (if l.isEmpty then rest.1 else trimSpaceGo l :: rest.1, rest.2)

/-- What `scanFilePart` computes, stated over the terminator-split segments of
its range. -/
def partSpec (head : List Nat) (lb : Bool) (bs : List Nat) :
    List (List Nat) × Chop :=
  match splitNL bs with
  | [] => ([], ⟨head, [], lb⟩)
  | [s] => ([], ⟨head ++ clean s, [], lb⟩)
  | s :: ss => ((emitsFrom [] ss).1, ⟨head ++ clean s, (emitsFrom [] ss).2, true⟩)

/-- Prefix its argument onto the first segment (total on `[]` for
definitional convenience; segment lists are never empty). -/
def consHead (p : List Nat) : List (List Nat) → List (List Nat)
  | [] => [p]
  | s :: ss => (p ++ s) :: ss

/-- Merge two segment lists: the last segment of the first concatenates with
the first segment of the second. -/
def joinSegs : List (List Nat) → List (List Nat) → List (List Nat)
  | [], r => r
  | [s], r => consHead s r
  | s :: s' :: ss, r => s :: joinSegs (s' :: ss) r

/-- The delivered lines when the stitch buffer starts as `pending` and the
remaining bytes are `bs`: prefix `pending` onto the first
whitespace-stripped segment and keep the nonempty results. -/
def allLines (pending : List Nat) (bs : List Nat) : List (List Nat) :=
  (consHead pending ((splitNL bs).map clean)).filter (fun l => !l.isEmpty)

/-- A delivered line, when nonempty. -/
def optLine (l : List Nat) : List (List Nat) :=
  if l.isEmpty then [] else [l]

/-- The stitch pass as the specification words it, as a left fold with
carry buffer `pending` over the boundary records: for each range append
`head` to the buffer; if the range saw a terminator and the buffer is
nonempty, emit the buffer as one line and clear it; then append `tail`;
after the loop, a nonempty buffer is emitted as one final line. -/
def stitchSpecStep (acc : List (List Nat) × List Nat) (c : Chop) :
    List (List Nat) × List Nat :=
  let pending := acc.2 ++ c.head
  if c.linebreak && !pending.isEmpty then (acc.1 ++ [pending], c.tail)
  else (acc.1, pending ++ c.tail)

/-- The whole stitch pass per the specification: fold, then flush. -/
def stitchSpec (cs : List Chop) : List (List Nat) :=
  let r := cs.foldl stitchSpecStep ([], [])
  if r.2.isEmpty then r.1 else r.1 ++ [r.2]

/-! ## Identifier codec -/

/-- The largest value of Go's `uint64`. -/
def maxUint64 : Nat := 2 ^ 64 - 1

/-- The digit loop of `strconv.ParseUint(s, 10, 64)`: reject a non-digit
byte; accumulate `n*10 + d`, rejecting once the value would exceed
`maxUint64` (Go checks this with a `cutoff` comparison and a wraparound
test, which in unbounded arithmetic is exactly `n*10 + d > maxUint64`). -/
def parseUintLoop (n : Nat) : List Nat → Option Nat
  | [] => some n
  | c :: cs =>
    if 48 ≤ c ∧ c ≤ 57 then
      if n * 10 + (c - 48) ≤ maxUint64 then parseUintLoop (n * 10 + (c - 48)) cs
      else none
    else none

/-- `strconv.ParseUint(s, 10, 64)` over the bytes of `s`: empty input and
any sign character are syntax errors (a sign byte is not a digit). -/
def ParseUint (s : List Nat) : Option Nat :=
  if s.isEmpty then none else parseUintLoop 0 s

/-- `binary.LittleEndian.PutUint64`: the 8 bytes of `v`, least significant
first. -/
def putUint64LE (v : Nat) : List Nat :=
  [v % 256, v / 2 ^ 8 % 256, v / 2 ^ 16 % 256, v / 2 ^ 24 % 256,
   v / 2 ^ 32 % 256, v / 2 ^ 40 % 256, v / 2 ^ 48 % 256, v / 2 ^ 56 % 256]

/-- `bytes2uint64` from src/main.go (`binary.LittleEndian.Uint64`). -/
def bytes2uint64 (b : List Nat) : Nat :=
  b.getD 0 0 + b.getD 1 0 * 2 ^ 8 + b.getD 2 0 * 2 ^ 16 + b.getD 3 0 * 2 ^ 24 +
    b.getD 4 0 * 2 ^ 32 + b.getD 5 0 * 2 ^ 40 + b.getD 6 0 * 2 ^ 48 +
    b.getD 7 0 * 2 ^ 56

/-- `mobile2bytes` from src/main.go: parse as base-10 `uint64`, encode
little-endian; `none` models the returned error. -/
def mobile2bytes (s : List Nat) : Option (List Nat) :=
  (ParseUint s).map putUint64LE

/-- A decimal digit byte (specification side). -/
def isDigitNat (c : Nat) : Bool := 48 ≤ c && c ≤ 57

/-- The base-10 value of a digit string (specification side). -/
def decimalValue (s : List Nat) : Nat :=
  s.foldl (fun n c => n * 10 + (c - 48)) 0

/-- Specification side of claim C4: `s` parses as a base-10 unsigned
integer of at most 64 bits. -/
def specUint64Numeral (s : List Nat) : Bool :=
  !s.isEmpty && s.all isDigitNat && decide (decimalValue s ≤ maxUint64)

/-! ## Keys, byte order and the prefix range -/

abbrev Key := List Nat

abbrev Value := List Nat

/-- Natwise lexicographic strict order (pebble's key comparison,
`bytes.Compare`): a proper prefix sorts before its extensions. -/
def bytesLt : List Nat → List Nat → Bool
  | [], [] => false
  | [], _ :: _ => true
  | _ :: _, [] => false
  | a :: as, b :: bs => decide (a < b) || (decide (a = b) && bytesLt as bs)

/-- Natwise lexicographic order, non-strict. -/
def bytesLe : List Nat → List Nat → Bool
  | [], _ => true
  | _ :: _, [] => false
  | a :: as, b :: bs => decide (a < b) || (decide (a = b) && bytesLe as bs)

/-- The carry loop of `keyUpperBound` on the reversed key: drop bytes that
wrap to zero when incremented, bump the first that does not. -/
def incrCarryRev : List Nat → Option (List Nat)
  | [] => none
  | b :: rest =>
    if (b + 1) % 256 = 0 then incrCarryRev rest
    else some ((b + 1) % 256 :: rest)

/-- `keyUpperBound` from `FindLabelsByMobile` (src/main.go 280-290): walk
from the last byte, increment with byte wraparound, truncate after the first
byte that did not wrap; `none` (no upper bound) when every byte wrapped. -/
def keyUpperBound (b : List Nat) : Option (List Nat) :=
  (incrCarryRev b.reverse).map List.reverse

/-- Membership of key `k` in the half-open scan range
`[pfx, keyUpperBound pfx)` used by the prefix iterator (no upper check when
unbounded). -/
def inPrefixRange (pfx k : List Nat) : Bool :=
  bytesLe pfx k &&
    match keyUpperBound pfx with
    | none => true
    | some u => bytesLt k u

/-! ## The partitioned store, its ops and the load pipeline -/

/-- `opType` from src/main.go (`opSet`, `opAppend`). -/
inductive OpType where
  | opSet
  | opAppend
deriving DecidableEq, Repr

/-- `op` from src/main.go: a queued write request. -/
structure Op where
  typ : OpType
  key : Key
  value : Value
deriving DecidableEq, Repr

/-- `pebbleDB.Append` (src/main.go 310-317): enqueues an `opSet` whose key is
`key ++ value` and whose value is empty. -/
def Append (key value : List Nat) : Op :=
  ⟨OpType.opSet, key ++ value, []⟩

/-- `pebbleDB.Set` (src/main.go 341-348): enqueues an `opSet` of the pair. -/
def Set (key value : List Nat) : Op :=
  ⟨OpType.opSet, key, value⟩

/-- A partition's pebble instance: key/value entries, newest first; a lookup
reads the newest entry for the key. -/
abbrev Store := List (Key × Value)

/-- The engine write `db.Set`: record the new pair (it shadows any older
entry for the key). -/
def dbSet (s : Store) (k : Key) (v : Value) : Store := (k, v) :: s

/-- The engine read `db.Get`: newest entry for the key, `none` models
`pebble.ErrNotFound`. -/
def dbGet (s : Store) (k : Key) : Option Value :=
  (s.find? (fun p => p.1 == k)).map Prod.snd

/-- One iteration of the partition worker from `Open` (src/main.go 389-419):
`opSet` overwrites; `opAppend` reads the current value (not-found as empty)
and comma-joins it after the incoming one before writing back. -/
def applyOp (s : Store) (o : Op) : Store :=
  match o.typ with
  | OpType.opSet => dbSet s o.key o.value
  | OpType.opAppend =>
    match dbGet s o.key with
    | none => dbSet s o.key o.value
    | some old =>
      if old.isEmpty then dbSet s o.key o.value
      else dbSet s o.key (o.value ++ [44] ++ old)

/-- Apply a queue of ops in FIFO order. -/
def applyOps (s : Store) (ops : List Op) : Store := ops.foldl applyOp s

/-- The distinct keys holding an entry (no delete path exists, so every
written key is live; the pebble iterator walks each live key once, its
ascending order abstracted — no claim here depends on iteration order). -/
def liveKeys (s : Store) : List Key := (s.map Prod.fst).dedup

/-- `FindLabelsByMobile` (src/main.go 276-308): visit the store's keys inside
`[mobile, keyUpperBound mobile)` and strip the `len(mobile)`-byte prefix. -/
def FindLabelsByMobile (s : Store) (mobile : List Nat) : List (List Nat) :=
  ((liveKeys s).filter (fun k => inPrefixRange mobile k)).map
    (fun k => k.drop mobile.length)

/-- `GetLabel` (src/main.go 219-233): parse the identifier and query; the
identifier parse failure is the only error (`none`); an empty label list is
an `ok` result. -/
def GetLabel (s : Store) (mobileText : List Nat) : Option (List (List Nat)) :=
  (mobile2bytes mobileText).map (FindLabelsByMobile s)

/-- An association key: encoded identifier, then the label bytes. -/
def assocKey (id : Nat) (label : List Nat) : Key :=
  putUint64LE id ++ label

/-- The callback loop of `LoadFile` (src/main.go 249-274) over the delivered
lines: count every line first; unless `noop`, parse the identifier (an error
aborts the load with it) and enqueue the `Append` op.  Accumulates the
reported count and the enqueued ops. -/
def LoadFileLoop (label : List Nat) (noop : Bool) :
    Nat → List Op → List (List Nat) → Except (List Nat) (Nat × List Op)
  | count, ops, [] => Except.ok (count, ops)
  | count, ops, l :: ls =>
    if noop then LoadFileLoop label noop (count + 1) ops ls
    else
      match mobile2bytes l with
      | none => Except.error l
      | some m => LoadFileLoop label noop (count + 1) (ops ++ [Append m label]) ls

/-- `LoadFile` from the delivered lines: the reported accepted line count and
the write ops enqueued, or the first parse error. -/
def LoadFile (lines : List (List Nat)) (label : List Nat) (noop : Bool) :
    Except (List Nat) (Nat × List Op) :=
  LoadFileLoop label noop 0 [] lines

/-- The writes one (fully parseable) load enqueues, line by line. -/
def loadWrites (lines : List (List Nat)) (label : List Nat) : List Op :=
  lines.filterMap (fun l => (mobile2bytes l).map (fun m => Append m label))

/-- Ten file bytes: the lines `123` and `456` terminated, then `78` with no
trailing terminator. -/
def fileC1 : List Nat := [49, 50, 51, 10, 52, 53, 54, 10, 55, 56]

/-! ## Characterisation of a single worker

`scanFilePart` over range bytes `bs` delivers the whitespace-stripped middle
segments of `bs` (those both preceded and followed by a terminator inside the
range), keeps the non-space bytes before the first terminator as `head`, the
non-space bytes after the last terminator as `tail`, and records whether any
terminator occurred. -/

theorem splitNL_ne_nil (bs : List Nat) : splitNL bs ≠ [] := by
  cases bs with
  | nil => simp [splitNL]
  | cons b bs =>
    simp only [splitNL]
    split
    · simp
    · cases h : splitNL bs <;> simp

theorem clean_nil : clean [] = [] := rfl

theorem clean_cons_space {b : Nat} (h : IsSpace b = true) (l : List Nat) :
    clean (b :: l) = clean l := by
  simp [clean, h]

theorem clean_cons_nonspace {b : Nat} (h : IsSpace b = false) (l : List Nat) :
    clean (b :: l) = b :: clean l := by
  simp [clean, h]

theorem clean_append (a b : List Nat) : clean (a ++ b) = clean a ++ clean b := by
  simp [clean, List.filter_append]

theorem mem_clean_not_space {b : Nat} {l : List Nat} (h : b ∈ clean l) :
    IsSpace b = false := by
  simp only [clean, List.mem_filter, Bool.not_eq_true'] at h
  exact h.2

theorem dropWhile_eq_self_of_no_space {l : List Nat}
    (h : ∀ b ∈ l, IsSpace b = false) : l.dropWhile IsSpace = l := by
  cases l with
  | nil => rfl
  | cons a l => simp [List.dropWhile_cons, h a (by simp)]

theorem trimSpace_eq_self {l : List Nat} (h : ∀ b ∈ l, IsSpace b = false) :
    trimSpace l = l := by
  unfold trimSpace
  rw [dropWhile_eq_self_of_no_space h,
    dropWhile_eq_self_of_no_space (fun b hb => h b (List.mem_reverse.mp hb)),
    List.reverse_reverse]

theorem trimSpace_clean (l : List Nat) : trimSpace (clean l) = clean l :=
  trimSpace_eq_self fun _ hb => mem_clean_not_space hb

theorem trimRightStop_ascii (rev : List Nat) (h : ∀ b ∈ rev, b < 128) :
    trimRightStop rev = (rev.dropWhile IsSpace).reverse := by
  induction rev with
  | nil => rfl
  | cons c rest ih =>
    have hc : c < 128 := h c (by simp)
    have h128 : ¬0x80 ≤ c := by omega
    by_cases hsp : IsSpace c
    · rw [show trimRightStop (c :: rest) = trimRightStop rest by
        simp [trimRightStop, h128, hsp]]
      rw [ih (fun b hb => h b (by simp [hb])), List.dropWhile_cons]
      simp [hsp]
    · rw [show trimRightStop (c :: rest) = (c :: rest).reverse by
        simp [trimRightStop, h128, hsp]]
      rw [List.dropWhile_cons]
      simp [hsp]

/-- On all-ASCII content, Go's `strings.TrimSpace` is exactly the trimming
of the specification's whitespace set from both ends. -/
theorem trimSpaceGo_ascii (l : List Nat) (h : ∀ b ∈ l, b < 128) :
    trimSpaceGo l = trimSpace l := by
  induction l with
  | nil => rfl
  | cons c rest ih =>
    have hc : c < 128 := h c (by simp)
    have h128 : ¬0x80 ≤ c := by omega
    by_cases hsp : IsSpace c
    · rw [show trimSpaceGo (c :: rest) = trimSpaceGo rest by
        simp [trimSpaceGo, h128, hsp]]
      rw [ih (fun b hb => h b (by simp [hb]))]
      unfold trimSpace
      rw [List.dropWhile_cons]
      simp [hsp]
    · rw [show trimSpaceGo (c :: rest) = trimRightStop (c :: rest).reverse by
        simp [trimSpaceGo, h128, hsp]]
      rw [trimRightStop_ascii _ (fun b hb => h b (List.mem_reverse.mp hb))]
      unfold trimSpace
      rw [List.dropWhile_cons]
      simp [hsp]

theorem trimSpaceGo_clean {l : List Nat} (h : ∀ b ∈ l, b < 128) :
    trimSpaceGo (clean l) = clean l := by
  rw [trimSpaceGo_ascii (clean l)
    (fun b hb => h b (List.mem_filter.mp hb).1), trimSpace_clean]

theorem mem_splitNL_mem {bs : List Nat} :
    ∀ {s : List Nat}, s ∈ splitNL bs → ∀ {b : Nat}, b ∈ s → b ∈ bs := by
  induction bs with
  | nil =>
    intro s hs b hb
    simp only [splitNL, List.mem_singleton] at hs
    subst hs
    cases hb
  | cons c bs ih =>
    intro s hs b hb
    by_cases hc : c = newline
    · rw [show splitNL (c :: bs) = [] :: splitNL bs by simp [splitNL, hc]] at hs
      rcases List.mem_cons.mp hs with rfl | hs'
      · cases hb
      · exact List.mem_cons_of_mem c (ih hs' hb)
    · obtain ⟨s₀, ss₀, hsplit⟩ : ∃ s₀ ss₀, splitNL bs = s₀ :: ss₀ := by
        cases hx : splitNL bs with
        | nil => exact absurd hx (splitNL_ne_nil bs)
        | cons s₀ ss₀ => exact ⟨s₀, ss₀, rfl⟩
      rw [show splitNL (c :: bs) = (c :: s₀) :: ss₀ by
        simp [splitNL, hc, hsplit]] at hs
      rcases List.mem_cons.mp hs with rfl | hs'
      · rcases List.mem_cons.mp hb with rfl | hb'
        · simp
        · exact List.mem_cons_of_mem c
            (ih (by rw [hsplit]; exact List.mem_cons_self s₀ ss₀) hb')
      · exact List.mem_cons_of_mem c
          (ih (by rw [hsplit]; exact List.mem_cons_of_mem s₀ hs') hb)

theorem emitsFrom_cons_space {b : Nat} (h : IsSpace b = true)
    (line s : List Nat) (ss : List (List Nat)) :
    emitsFrom line ((b :: s) :: ss) = emitsFrom line (s :: ss) := by
  cases ss with
  | nil => simp [emitsFrom, clean_cons_space h]
  | cons s' ss' => simp [emitsFrom, clean_cons_space h]

theorem emitsFrom_cons_nonspace {b : Nat} (h : IsSpace b = false)
    (line s : List Nat) (ss : List (List Nat)) :
    emitsFrom line ((b :: s) :: ss) = emitsFrom (line ++ [b]) (s :: ss) := by
  cases ss with
  | nil => simp [emitsFrom, clean_cons_nonspace h]
  | cons s' ss' => simp [emitsFrom, clean_cons_nonspace h]

theorem emitsFrom_nil_cons (line s : List Nat) (ss : List (List Nat)) :
    emitsFrom line ([] :: s :: ss) =
      (if line.isEmpty then (emitsFrom [] (s :: ss)).1
        else trimSpaceGo line :: (emitsFrom [] (s :: ss)).1,
       (emitsFrom [] (s :: ss)).2) := by
  simp [emitsFrom, clean]

theorem scanPartGo_started (bs : List Nat) : ∀ head line,
    scanPartGo true head line true bs =
      ((emitsFrom line (splitNL bs)).1,
       ⟨head, (emitsFrom line (splitNL bs)).2, true⟩) := by
  induction bs with
  | nil => intro head line; simp [scanPartGo, splitNL, emitsFrom, clean]
  | cons b bs ih =>
    intro head line
    by_cases hsp : IsSpace b = true
    · by_cases hnl : b = newline
      · subst hnl
        obtain ⟨s, ss, hsplit⟩ : ∃ s ss, splitNL bs = s :: ss := by
          cases h : splitNL bs with
          | nil => exact absurd h (splitNL_ne_nil bs)
          | cons s ss => exact ⟨s, ss, rfl⟩
        have hnlsplit : splitNL (newline :: bs) = [] :: s :: ss := by
          simp [splitNL, hsplit, newline]
        rw [hnlsplit, emitsFrom_nil_cons, ← hsplit]
        by_cases hline : line.isEmpty
        · simp only [scanPartGo, hsp, if_pos rfl, hline, if_true, ite_true]
          rw [ih head []]
        · simp only [scanPartGo, hsp, if_pos rfl, hline, ite_false, Bool.false_eq_true]
          rw [ih head []]
          simp [hline]
      · obtain ⟨s, ss, hsplit⟩ : ∃ s ss, splitNL bs = s :: ss := by
          cases h : splitNL bs with
          | nil => exact absurd h (splitNL_ne_nil bs)
          | cons s ss => exact ⟨s, ss, rfl⟩
        have hbsplit : splitNL (b :: bs) = (b :: s) :: ss := by
          simp [splitNL, hnl, hsplit]
        rw [hbsplit, emitsFrom_cons_space hsp]
        simp only [scanPartGo, hsp, if_true, hnl, ite_false]
        rw [ih head line, hsplit]
    · obtain ⟨s, ss, hsplit⟩ : ∃ s ss, splitNL bs = s :: ss := by
        cases h : splitNL bs with
        | nil => exact absurd h (splitNL_ne_nil bs)
        | cons s ss => exact ⟨s, ss, rfl⟩
      have hnl : b ≠ newline := by
        intro h; subst h; simp [IsSpace, newline] at hsp
      have hbsplit : splitNL (b :: bs) = (b :: s) :: ss := by
        simp [splitNL, hnl, hsplit]
      rw [hbsplit, emitsFrom_cons_nonspace (by simpa using hsp)]
      simp only [scanPartGo, hsp, Bool.false_eq_true, if_false, if_true]
      rw [ih head (line ++ [b]), hsplit]

theorem scanPartGo_fresh (bs : List Nat) : ∀ head lb,
    scanPartGo false head [] lb bs = partSpec head lb bs := by
  induction bs with
  | nil =>
    intro head lb
    simp [scanPartGo, partSpec, splitNL, clean]
  | cons b bs ih =>
    intro head lb
    by_cases hsp : IsSpace b = true
    · by_cases hnl : b = newline
      · subst hnl
        obtain ⟨s, ss, hsplit⟩ : ∃ s ss, splitNL bs = s :: ss := by
          cases h : splitNL bs with
          | nil => exact absurd h (splitNL_ne_nil bs)
          | cons s ss => exact ⟨s, ss, rfl⟩
        have hnlsplit : splitNL (newline :: bs) = [] :: s :: ss := by
          simp [splitNL, hsplit, newline]
        simp only [scanPartGo, hsp, if_pos rfl, List.isEmpty_nil, ite_true, if_true]
        rw [scanPartGo_started bs head [], partSpec, hnlsplit, hsplit]
        simp [clean]
      · obtain ⟨s, ss, hsplit⟩ : ∃ s ss, splitNL bs = s :: ss := by
          cases h : splitNL bs with
          | nil => exact absurd h (splitNL_ne_nil bs)
          | cons s ss => exact ⟨s, ss, rfl⟩
        have hbsplit : splitNL (b :: bs) = (b :: s) :: ss := by
          simp [splitNL, hnl, hsplit]
        simp only [scanPartGo, hsp, if_true, hnl, ite_false]
        rw [ih head lb]
        unfold partSpec
        rw [hbsplit, hsplit]
        cases ss with
        | nil => simp [clean_cons_space hsp]
        | cons s' ss' => simp [clean_cons_space hsp]
    · obtain ⟨s, ss, hsplit⟩ : ∃ s ss, splitNL bs = s :: ss := by
        cases h : splitNL bs with
        | nil => exact absurd h (splitNL_ne_nil bs)
        | cons s ss => exact ⟨s, ss, rfl⟩
      have hnl : b ≠ newline := by
        intro h; subst h; simp [IsSpace, newline] at hsp
      have hbsplit : splitNL (b :: bs) = (b :: s) :: ss := by
        simp [splitNL, hnl, hsplit]
      simp only [scanPartGo, hsp, Bool.false_eq_true, if_false]
      rw [ih (head ++ [b]) lb]
      unfold partSpec
      rw [hbsplit, hsplit]
      cases ss with
      | nil => simp [clean_cons_nonspace (by simpa using hsp)]
      | cons s' ss' => simp [clean_cons_nonspace (by simpa using hsp)]

theorem scanFilePart_eq_partSpec (bs : List Nat) :
    scanFilePart bs = partSpec [] false bs :=
  scanPartGo_fresh bs [] false

/-! ## Composing consecutive ranges

Concatenating two byte streams merges the last segment of the first with the
first segment of the second; `joinSegs` states this on segment lists. -/

theorem splitNL_append (xs ys : List Nat) :
    splitNL (xs ++ ys) = joinSegs (splitNL xs) (splitNL ys) := by
  induction xs with
  | nil =>
    obtain ⟨r, rt, hr⟩ : ∃ r rt, splitNL ys = r :: rt := by
      cases h : splitNL ys with
      | nil => exact absurd h (splitNL_ne_nil ys)
      | cons r rt => exact ⟨r, rt, rfl⟩
    simp [splitNL, joinSegs, consHead, hr]
  | cons b xs ih =>
    obtain ⟨s, ss, hsplit⟩ : ∃ s ss, splitNL xs = s :: ss := by
      cases h : splitNL xs with
      | nil => exact absurd h (splitNL_ne_nil xs)
      | cons s ss => exact ⟨s, ss, rfl⟩
    by_cases hb : b = newline
    · subst hb
      have h1 : splitNL (newline :: xs ++ ys) = [] :: splitNL (xs ++ ys) := by
        simp [splitNL]
      have h2 : splitNL (newline :: xs) = [] :: s :: ss := by
        simp [splitNL, hsplit]
      rw [h1, h2, ih, hsplit]
      cases ss with
      | nil => simp [joinSegs]
      | cons s' ss' => simp [joinSegs]
    · have h2 : splitNL (b :: xs) = (b :: s) :: ss := by
        simp [splitNL, hb, hsplit]
      obtain ⟨u, us, hu⟩ : ∃ u us, splitNL (xs ++ ys) = u :: us := by
        cases h : splitNL (xs ++ ys) with
        | nil => exact absurd h (splitNL_ne_nil _)
        | cons u us => exact ⟨u, us, rfl⟩
      have h1 : splitNL (b :: xs ++ ys) = (b :: u) :: us := by
        simp [splitNL, hb, hu]
      rw [h1, h2]
      rw [hu, hsplit] at ih
      cases ss with
      | nil =>
        obtain ⟨r, rt, hr⟩ : ∃ r rt, splitNL ys = r :: rt := by
          cases h : splitNL ys with
          | nil => exact absurd h (splitNL_ne_nil ys)
          | cons r rt => exact ⟨r, rt, rfl⟩
        simp only [joinSegs, consHead, hr] at ih ⊢
        injection ih with h3 h4
        subst h3; subst h4
        simp
      | cons s' ss' =>
        simp only [joinSegs] at ih ⊢
        injection ih with h3 h4
        subst h3; subst h4
        simp

theorem filter_nonempty_cons (x : List Nat) (xs : List (List Nat)) :
    (x :: xs).filter (fun l => !l.isEmpty) =
      optLine x ++ xs.filter (fun l => !l.isEmpty) := by
  by_cases h : x.isEmpty <;> simp [List.filter_cons, optLine, h]

theorem emitsFrom_bridge (r : List (List Nat)) (hr : r ≠ []) :
    ∀ s' ss, (∀ u ∈ s' :: ss, ∀ b ∈ u, b < 128) →
      ((joinSegs (s' :: ss) r).map clean).filter (fun l => !l.isEmpty) =
        (emitsFrom [] (s' :: ss)).1 ++
          (consHead (emitsFrom [] (s' :: ss)).2 (r.map clean)).filter
            (fun l => !l.isEmpty) := by
  intro s' ss
  induction ss generalizing s' with
  | nil =>
    intro _
    obtain ⟨r₀, rt, hr0⟩ : ∃ r₀ rt, r = r₀ :: rt := by
      cases r with
      | nil => exact absurd rfl hr
      | cons r₀ rt => exact ⟨r₀, rt, rfl⟩
    subst hr0
    simp [joinSegs, consHead, emitsFrom, clean_append]
  | cons t ts ih =>
    intro hA
    have hs' : ∀ b ∈ s', b < 128 := hA s' (by simp)
    have hemit : emitsFrom [] (s' :: t :: ts) =
        (if (clean s').isEmpty then (emitsFrom [] (t :: ts)).1
          else clean s' :: (emitsFrom [] (t :: ts)).1,
         (emitsFrom [] (t :: ts)).2) := by
      simp [emitsFrom, trimSpaceGo_clean hs']
    rw [hemit]
    have hjoin : joinSegs (s' :: t :: ts) r = s' :: joinSegs (t :: ts) r := rfl
    rw [hjoin, List.map_cons, filter_nonempty_cons,
      ih t (fun u hu => hA u (List.mem_cons_of_mem s' hu))]
    by_cases h : (clean s').isEmpty
    · simp [optLine, h]
    · simp [optLine, h]

theorem allLines_no_newline {p : List Nat} {s : List Nat}
    (h : splitNL p = [s]) (pending rest : List Nat) :
    allLines pending (p ++ rest) = allLines (pending ++ clean s) rest := by
  obtain ⟨r₀, rt, hr⟩ : ∃ r₀ rt, splitNL rest = r₀ :: rt := by
    cases hx : splitNL rest with
    | nil => exact absurd hx (splitNL_ne_nil rest)
    | cons r₀ rt => exact ⟨r₀, rt, rfl⟩
  unfold allLines
  rw [splitNL_append, h, hr]
  simp [joinSegs, consHead, clean_append, List.append_assoc]

theorem allLines_newline {p : List Nat} {s s' : List Nat} {ss : List (List Nat)}
    (h : splitNL p = s :: s' :: ss) (hA : ∀ b ∈ p, b < 128)
    (pending rest : List Nat) :
    allLines pending (p ++ rest) =
      optLine (pending ++ clean s) ++ (emitsFrom [] (s' :: ss)).1 ++
        allLines (emitsFrom [] (s' :: ss)).2 rest := by
  have hseg : ∀ u ∈ s' :: ss, ∀ b ∈ u, b < 128 := by
    intro u hu b hb
    have hmem : u ∈ splitNL p := by
      rw [h]
      exact List.mem_cons_of_mem s hu
    exact hA b (mem_splitNL_mem hmem hb)
  unfold allLines
  rw [splitNL_append, h]
  have hjoin : joinSegs (s :: s' :: ss) (splitNL rest) =
      s :: joinSegs (s' :: ss) (splitNL rest) := rfl
  rw [hjoin, List.map_cons, consHead, filter_nonempty_cons,
    emitsFrom_bridge (splitNL rest) (splitNL_ne_nil rest) s' ss hseg,
    List.append_assoc]

/-- Main scanner theorem: over any decomposition of an all-ASCII byte stream
into consecutive ranges, the in-range deliveries of all workers together with
the stitch pass deliver, up to order, exactly the nonempty
whitespace-stripped segments of the whole stream, the stitch buffer counting
toward the first.  (The ASCII bound is needed because the in-range emit path
applies `strings.TrimSpace`, which on non-ASCII content also trims Unicode
whitespace — see `scanFile_unicode_trim`.) -/
theorem scanPartsFrom_perm (parts : List (List Nat)) :
    ∀ pending, (∀ b ∈ parts.flatten, b < 128) →
      (scanPartsFrom pending parts).Perm (allLines pending parts.flatten) := by
  induction parts with
  | nil =>
    intro pending _
    by_cases h : pending.isEmpty <;>
      simp [scanPartsFrom, allLines, stitchGo, splitNL, consHead, clean, h]
  | cons p ps ih =>
    intro pending hAll
    have hp : ∀ b ∈ p, b < 128 := fun b hb => hAll b (by
      rw [List.flatten_cons]
      exact List.mem_append.mpr (Or.inl hb))
    have hps : ∀ b ∈ ps.flatten, b < 128 := fun b hb => hAll b (by
      rw [List.flatten_cons]
      exact List.mem_append.mpr (Or.inr hb))
    have hpart := scanFilePart_eq_partSpec p
    cases hs : splitNL p with
    | nil => exact absurd hs (splitNL_ne_nil p)
    | cons s ss =>
      cases ss with
      | nil =>
        have hc : scanFilePart p = ([], ⟨clean s, [], false⟩) := by
          rw [hpart]; unfold partSpec; rw [hs]; simp
        have hD : scanPartsFrom pending (p :: ps) =
            scanPartsFrom (pending ++ clean s) ps := by
          simp [scanPartsFrom, hc, stitchGo]
        rw [hD, List.flatten_cons, allLines_no_newline hs]
        exact ih (pending ++ clean s) hps
      | cons s' ss' =>
        have hc : scanFilePart p =
            ((emitsFrom [] (s' :: ss')).1,
             ⟨clean s, (emitsFrom [] (s' :: ss')).2, true⟩) := by
          rw [hpart]; unfold partSpec; rw [hs]; simp
        have hD : scanPartsFrom pending (p :: ps) =
            (emitsFrom [] (s' :: ss')).1 ++
              ((((ps.map scanFilePart).map Prod.fst).flatten ++
                (optLine (pending ++ clean s) ++
                  stitchGo (emitsFrom [] (s' :: ss')).2
                    ((ps.map scanFilePart).map Prod.snd)))) := by
          simp only [scanPartsFrom, List.map_cons, hc, List.flatten_cons, stitchGo]
          by_cases hl : (pending ++ clean s).isEmpty <;>
            simp [optLine, hl, List.append_assoc]
        have hBS : ((ps.map scanFilePart).map Prod.fst).flatten ++
            stitchGo (emitsFrom [] (s' :: ss')).2
              ((ps.map scanFilePart).map Prod.snd) =
            scanPartsFrom (emitsFrom [] (s' :: ss')).2 ps := rfl
        rw [hD, List.flatten_cons, allLines_newline hs hp]
        set A := (emitsFrom [] (s' :: ss')).1 with hA
        set B := ((ps.map scanFilePart).map Prod.fst).flatten with hB
        set O := optLine (pending ++ clean s) with hO
        set S := stitchGo (emitsFrom [] (s' :: ss')).2
          ((ps.map scanFilePart).map Prod.snd) with hS
        have hmid : (B ++ (O ++ S)).Perm (O ++ (B ++ S)) := by
          have h1 : B ++ (O ++ S) = (B ++ O) ++ S := by rw [List.append_assoc]
          have h2 : (O ++ B) ++ S = O ++ (B ++ S) := by rw [List.append_assoc]
          rw [h1, ← h2]
          exact List.perm_append_comm.append_right S
        have hx : (A ++ (B ++ (O ++ S))).Perm
            (A ++ (O ++ allLines (emitsFrom [] (s' :: ss')).2 ps.flatten)) := by
          refine List.Perm.append_left A (hmid.trans ?_)
          refine List.Perm.append_left O ?_
          rw [hBS]
          exact ih (emitsFrom [] (s' :: ss')).2 hps
        refine hx.trans ?_
        have h3 : A ++ (O ++ allLines (emitsFrom [] (s' :: ss')).2 ps.flatten) =
            (A ++ O) ++ allLines (emitsFrom [] (s' :: ss')).2 ps.flatten := by
          rw [List.append_assoc]
        rw [h3]
        exact List.perm_append_comm.append_right _

/-- Every delivered line over any full decomposition of an all-ASCII file is
exactly a nonempty whitespace-stripped raw line, once each (up to delivery
order). -/
theorem scanParts_perm_cleanLines (parts : List (List Nat))
    (hA : ∀ b ∈ parts.flatten, b < 128) :
    (scanParts parts).Perm (cleanLines parts.flatten) := by
  refine (scanPartsFrom_perm parts [] hA).trans ?_
  obtain ⟨s, ss, h⟩ : ∃ s ss, splitNL parts.flatten = s :: ss := by
    cases hx : splitNL parts.flatten with
    | nil => exact absurd hx (splitNL_ne_nil _)
    | cons s ss => exact ⟨s, ss, rfl⟩
  unfold allLines cleanLines
  rw [h]
  simp [consHead]

theorem clean_idem (l : List Nat) : clean (clean l) = clean l := by
  simp [clean, List.filter_filter]

theorem mem_cleanLines_nonempty {l : List Nat} {bs : List Nat}
    (h : l ∈ cleanLines bs) : l ≠ [] ∧ clean l = l := by
  unfold cleanLines at h
  rw [List.mem_filter] at h
  obtain ⟨hmem, hne⟩ := h
  obtain ⟨s, _, rfl⟩ := List.mem_map.mp hmem
  refine ⟨?_, clean_idem s⟩
  intro hnil
  rw [hnil] at hne
  simp at hne

/-! ## Claims C1-C3: the scanner -/

/-- C1 (code bug): `scanFile` does not cover the whole file.  With ten file
bytes (`123`, `456` terminated, then `78`) and 4 workers, the computed ranges
end at byte 8 = 4 * (10 / 4), the slices concatenate to a proper prefix of
the file, the scan delivers only the two lines `123` and `456`, and the file
has three nonempty trimmed lines — so the claimed coverage ("the last range
extending to EOF") and the claimed count of delivered lines both fail. -/
theorem claim_C1_remainder_dropped :
    ranges fileC1.length 4 = [(0, 2), (2, 4), (4, 6), (6, 8)] ∧
    ((ranges fileC1.length 4).map (slice fileC1)).flatten ≠ fileC1 ∧
    scanFile fileC1 4 = [[49, 50, 51], [52, 53, 54]] ∧
    cleanLines fileC1 = [[49, 50, 51], [52, 53, 54], [55, 56]] := by
  decide

/-- C2 (confirmed): the stitch pass of `scanFile` is exactly the sequential
carry-buffer pass the claim describes — append `head`, emit the nonempty
buffer when the range saw a terminator, append `tail`, flush the nonempty
buffer after the loop. -/
theorem claim_C2_stitch (cs : List Chop) : stitchGo [] cs = stitchSpec cs := by
  have h : ∀ acc pending,
      (let r := cs.foldl stitchSpecStep (acc, pending)
       if r.2.isEmpty then r.1 else r.1 ++ [r.2]) = acc ++ stitchGo pending cs := by
    induction cs with
    | nil =>
      intro acc pending
      by_cases hp : pending.isEmpty <;> simp [stitchGo, hp]
    | cons c cs ih =>
      intro acc pending
      simp only [List.foldl_cons]
      by_cases hlb : c.linebreak
      · by_cases hp : (pending ++ c.head).isEmpty
        · have hstep : stitchSpecStep (acc, pending) c = (acc, pending ++ c.head ++ c.tail) := by
            simp [stitchSpecStep, hlb, hp]
          have hempty : pending ++ c.head = [] := List.isEmpty_iff.mp hp
          rw [hstep, ih acc (pending ++ c.head ++ c.tail), hempty]
          simp only [stitchGo, hlb, if_true, hempty, List.isEmpty_nil, ite_true,
            List.nil_append]
        · have hstep : stitchSpecStep (acc, pending) c =
              (acc ++ [pending ++ c.head], c.tail) := by
            simp [stitchSpecStep, hlb, hp]
          rw [hstep, ih (acc ++ [pending ++ c.head]) c.tail]
          simp [stitchGo, hlb, hp, List.append_assoc]
      · have hstep : stitchSpecStep (acc, pending) c =
            (acc, pending ++ c.head ++ c.tail) := by
          simp [stitchSpecStep, hlb]
        rw [hstep, ih acc (pending ++ c.head ++ c.tail)]
        simp [stitchGo, hlb]
  have h0 := h [] []
  simpa [stitchSpec] using h0.symm

/-- The in-range emit path on non-ASCII content: on `x\n<U+00A0>1\n` (the
no-break space as the bytes `0xC2 0xA0`) the scanner delivers `1` — the
Unicode space is trimmed by `strings.TrimSpace` although it is outside the
whitespace set the specification names — and on `x\n<U+00A0>\n` it delivers
an empty line (the `len(line) > 0` check precedes the trim).  Evaluations of
the model matching hand traces of the Go program. -/
theorem scanFile_unicode_trim :
    scanFile [120, 10, 194, 160, 49, 10] 1 = [[49], [120]] ∧
    scanFile [120, 10, 194, 160, 10] 1 = [[], [120]] := by
  decide

/-- C3 counterexample: on the file `x\na b\n` with one worker, the scanner
delivers `ab` and `x`, yet the raw line `a b` trimmed of surrounding
whitespace is `a b` (a trimmed raw line of the file), which is never
delivered — interior whitespace is removed, refuting "interior bytes
unchanged".  Moreover on `x\n<U+00A0>1\n` the delivered line `1` differs
from the raw line `<U+00A0>1` trimmed of the named whitespace set (Go also
trims the Unicode space), and on `x\n<U+00A0>\n` an empty line is
delivered, refuting "a line that trims to empty is never delivered to the
callback" in its consequence that deliveries are nonempty. -/
theorem claim_C3_counterexample :
    scanFile [120, 10, 97, 32, 98, 10] 1 = [[97, 98], [120]] ∧
    [97, 32, 98] ∈ trimmedRawLines [120, 10, 97, 32, 98, 10] ∧
    [97, 32, 98] ∉ scanFile [120, 10, 97, 32, 98, 10] 1 ∧
    scanFile [120, 10, 194, 160, 49, 10] 1 = [[49], [120]] ∧
    [194, 160, 49] ∈ trimmedRawLines [120, 10, 194, 160, 49, 10] ∧
    [194, 160, 49] ∉ scanFile [120, 10, 194, 160, 49, 10] 1 ∧
    [] ∈ scanFile [120, 10, 194, 160, 10] 1 := by
  decide

/-- C3 amended: for a file all of whose bytes are ASCII, over any
decomposition into consecutive byte ranges, the lines delivered (in range or
via the stitch pass) are, up to delivery order, exactly the raw lines of the
file with every whitespace byte removed — interior bytes included, not only
surrounding ones — each nonempty such line once; every delivered line is
nonempty and free of whitespace bytes, so a whitespace-only line is never
delivered.  (Off ASCII neither description holds: see
`scanFile_unicode_trim`.) -/
theorem claim_C3_amended (parts : List (List Nat))
    (hA : ∀ b ∈ parts.flatten, b < 128) :
    (scanParts parts).Perm (cleanLines parts.flatten) ∧
    ∀ l ∈ scanParts parts, l ≠ [] ∧ clean l = l := by
  refine ⟨scanParts_perm_cleanLines parts hA, fun l hl => ?_⟩
  exact mem_cleanLines_nonempty
    (((scanParts_perm_cleanLines parts hA).mem_iff).mp hl)

/-- Witness for the amended C3 at the all-ASCII decomposition `[a\n][b]`:
the two delivered lines are the two cleaned raw lines, and the delivered
line `a` is nonempty and whitespace-free. -/
theorem claim_C3_amended_witness :
    (scanParts [[97, 10], [98]]).Perm
      (cleanLines ([[97, 10], [98]] : List (List Nat)).flatten) ∧
    ([97] ≠ [] ∧ clean [97] = [97]) :=
  ⟨(claim_C3_amended [[97, 10], [98]] (by decide)).1,
   (claim_C3_amended [[97, 10], [98]] (by decide)).2 [97] (by decide)⟩

/-! ## Claim C4: the identifier codec -/

theorem foldl_digits_mono (cs : List Nat) :
    ∀ n : Nat, n ≤ cs.foldl (fun a c => a * 10 + (c - 48)) n := by
  induction cs with
  | nil => intro n; exact Nat.le_refl n
  | cons c cs ih =>
    intro n
    calc n ≤ n * 10 + (c - 48) := by omega
    _ ≤ cs.foldl (fun a c => a * 10 + (c - 48)) (n * 10 + (c - 48)) :=
      ih (n * 10 + (c - 48))

theorem parseUintLoop_eq (cs : List Nat) :
    ∀ n : Nat, n ≤ maxUint64 →
      parseUintLoop n cs =
        if cs.all isDigitNat ∧ cs.foldl (fun a c => a * 10 + (c - 48)) n ≤ maxUint64
        then some (cs.foldl (fun a c => a * 10 + (c - 48)) n)
        else none := by
  induction cs with
  | nil =>
    intro n hn
    simp [parseUintLoop, hn]
  | cons c cs ih =>
    intro n hn
    by_cases hd : 48 ≤ c ∧ c ≤ 57
    · by_cases hov : n * 10 + (c - 48) ≤ maxUint64
      · rw [show parseUintLoop n (c :: cs) = parseUintLoop (n * 10 + (c - 48)) cs by
          simp [parseUintLoop, hd, hov]]
        rw [ih (n * 10 + (c - 48)) hov]
        simp [isDigitNat, hd.1, hd.2]
      · have hloop : parseUintLoop n (c :: cs) = none := by
          simp [parseUintLoop, hd, hov]
        rw [hloop]
        have : ¬(cs.foldl (fun a c => a * 10 + (c - 48)) (n * 10 + (c - 48)) ≤ maxUint64) := by
          have := foldl_digits_mono cs (n * 10 + (c - 48))
          omega
        simp only [List.all_cons, List.foldl_cons]
        rw [if_neg]
        intro hcontra
        exact this hcontra.2
    · have hloop : parseUintLoop n (c :: cs) = none := by
        simp only [parseUintLoop]
        rw [if_neg hd]
      rw [hloop]
      have hdig : isDigitNat c = false := by
        unfold isDigitNat
        by_cases h1 : 48 ≤ c
        · have h2 : ¬c ≤ 57 := fun h2 => hd ⟨h1, h2⟩
          simp [h1, h2]
        · simp [h1]
      simp [hdig]

theorem ParseUint_eq (s : List Nat) :
    ParseUint s = if specUint64Numeral s then some (decimalValue s) else none := by
  unfold ParseUint specUint64Numeral decimalValue
  by_cases hs : s.isEmpty
  · simp [hs]
  · rw [if_neg hs, parseUintLoop_eq s 0 (by unfold maxUint64; omega)]
    by_cases hall : s.all isDigitNat
    · by_cases hval : s.foldl (fun a c => a * 10 + (c - 48)) 0 ≤ maxUint64
      · simp [hs, hall, hval]
      · simp [hs, hall, hval]
    · simp [hs, hall]

theorem bytes2uint64_putUint64LE {v : Nat} (hv : v ≤ maxUint64) :
    bytes2uint64 (putUint64LE v) = v := by
  unfold bytes2uint64 putUint64LE maxUint64 at *
  simp only [List.getD_cons_zero, List.getD_cons_succ]
  omega

/-- C4 (confirmed): `mobile2bytes` succeeds exactly on the byte strings that
parse as a base-10 unsigned integer of at most 64 bits, returning the
little-endian encoding of the value; the returned key has 8 bytes and decodes
back to the parsed value; every other input is rejected with no key. -/
theorem claim_C4_mobile2bytes (s : List Nat) :
    mobile2bytes s =
      (if specUint64Numeral s then some (putUint64LE (decimalValue s)) else none) ∧
    ∀ b, mobile2bytes s = some b →
      b.length = 8 ∧ bytes2uint64 b = decimalValue s := by
  have hmain : mobile2bytes s =
      (if specUint64Numeral s then some (putUint64LE (decimalValue s)) else none) := by
    unfold mobile2bytes
    rw [ParseUint_eq]
    by_cases h : specUint64Numeral s <;> simp [h]
  refine ⟨hmain, fun b hb => ?_⟩
  rw [hmain] at hb
  by_cases h : specUint64Numeral s
  · rw [if_pos h] at hb
    have hval : decimalValue s ≤ maxUint64 := by
      unfold specUint64Numeral at h
      simp only [Bool.and_eq_true, decide_eq_true_eq] at h
      exact h.2
    injection hb with hbeq
    subst hbeq
    exact ⟨by simp [putUint64LE], bytes2uint64_putUint64LE hval⟩
  · rw [if_neg h] at hb
    cases hb

/-! ## Claim C5: the prefix upper bound -/

theorem incrCarryRev_append (xs ys : List Nat) :
    incrCarryRev (xs ++ ys) =
      match incrCarryRev xs with
      | some u => some (u ++ ys)
      | none => incrCarryRev ys := by
  induction xs with
  | nil => simp [incrCarryRev]
  | cons b xs ih =>
    by_cases h : (b + 1) % 256 = 0
    · simp [incrCarryRev, h, ih]
    · simp [incrCarryRev, h]

theorem incrCarryRev_none_iff (xs : List Nat) :
    incrCarryRev xs = none ↔ ∀ b ∈ xs, (b + 1) % 256 = 0 := by
  induction xs with
  | nil => simp [incrCarryRev]
  | cons b xs ih =>
    by_cases h : (b + 1) % 256 = 0
    · simp [incrCarryRev, h, ih]
    · simp [incrCarryRev, h]

theorem keyUpperBound_nil : keyUpperBound [] = none := rfl

theorem keyUpperBound_cons (p : Nat) (ps : List Nat) :
    keyUpperBound (p :: ps) =
      match keyUpperBound ps with
      | some u => some (p :: u)
      | none => if (p + 1) % 256 = 0 then none else some [(p + 1) % 256] := by
  unfold keyUpperBound
  rw [List.reverse_cons, incrCarryRev_append]
  cases h : incrCarryRev ps.reverse with
  | none =>
    by_cases hp : (p + 1) % 256 = 0 <;> simp [incrCarryRev, hp]
  | some u => simp

theorem keyUpperBound_none_iff (ps : List Nat) :
    keyUpperBound ps = none ↔ ∀ b ∈ ps, (b + 1) % 256 = 0 := by
  have h0 : keyUpperBound ps = none ↔ incrCarryRev ps.reverse = none := by
    unfold keyUpperBound
    cases incrCarryRev ps.reverse <;> simp
  rw [h0, incrCarryRev_none_iff]
  constructor
  · intro h b hb
    exact h b (List.mem_reverse.mpr hb)
  · intro h b hb
    exact h b (List.mem_reverse.mp hb)

theorem bytesLe_all255 (ps : List Nat) :
    ∀ ks : List Nat, (∀ b ∈ ps, b = 255) → (∀ b ∈ ks, b < 256) →
      (bytesLe ps ks = true ↔ ps <+: ks) := by
  induction ps with
  | nil =>
    intro ks _ _
    simp [bytesLe]
  | cons p ps ih =>
    intro ks h255 hk
    have hp : p = 255 := h255 p (by simp)
    cases ks with
    | nil => simp [bytesLe]
    | cons q ks =>
      have hq : q < 256 := hk q (by simp)
      have hnot : ¬p < q := by omega
      rw [List.cons_prefix_cons]
      show (decide (p < q) || (decide (p = q) && bytesLe ps ks)) = true ↔ _
      simp only [Bool.or_eq_true, Bool.and_eq_true, decide_eq_true_eq]
      rw [ih ks (fun b hb => h255 b (by simp [hb])) (fun b hb => hk b (by simp [hb]))]
      constructor
      · rintro (h | ⟨he, hpre⟩)
        · exact absurd h hnot
        · exact ⟨he, hpre⟩
      · rintro ⟨he, hpre⟩
        exact Or.inr ⟨he, hpre⟩

theorem inPrefixRange_iff (pfx : List Nat) :
    ∀ k : List Nat, (∀ b ∈ pfx, b < 256) → (∀ b ∈ k, b < 256) →
      (inPrefixRange pfx k = true ↔ pfx <+: k) := by
  induction pfx with
  | nil =>
    intro k _ _
    simp [inPrefixRange, bytesLe, keyUpperBound_nil]
  | cons p ps ih =>
    intro k hp hk
    have hpb : p < 256 := hp p (by simp)
    cases k with
    | nil =>
      simp [inPrefixRange, bytesLe]
    | cons q ks =>
      have hqb : q < 256 := hk q (by simp)
      have hps : ∀ b ∈ ps, b < 256 := fun b hb => hp b (by simp [hb])
      have hks : ∀ b ∈ ks, b < 256 := fun b hb => hk b (by simp [hb])
      rw [List.cons_prefix_cons]
      unfold inPrefixRange
      rw [keyUpperBound_cons]
      cases hub : keyUpperBound ps with
      | some u =>
        show ((decide (p < q) || (decide (p = q) && bytesLe ps ks)) &&
          (decide (q < p) || (decide (q = p) && bytesLt ks u))) = true ↔ _
        have hinp : (bytesLe ps ks = true ∧ bytesLt ks u = true) ↔ ps <+: ks := by
          have h0 : inPrefixRange ps ks = (bytesLe ps ks && bytesLt ks u) := by
            unfold inPrefixRange
            rw [hub]
          have h1 := ih ks hps hks
          rw [h0, Bool.and_eq_true] at h1
          exact h1
        simp only [Bool.and_eq_true, Bool.or_eq_true, decide_eq_true_eq]
        constructor
        · rintro ⟨hlo, hhi⟩
          rcases hlo with h1 | ⟨he, hle⟩
          · rcases hhi with h2 | ⟨he2, _⟩
            · omega
            · omega
          · subst he
            rcases hhi with h2 | ⟨_, hlt⟩
            · omega
            · exact ⟨rfl, hinp.mp ⟨hle, hlt⟩⟩
        · rintro ⟨rfl, hpre⟩
          obtain ⟨hle, hlt⟩ := hinp.mpr hpre
          exact ⟨Or.inr ⟨rfl, hle⟩, Or.inr ⟨rfl, hlt⟩⟩
      | none =>
        have h255 : ∀ b ∈ ps, b = 255 := by
          intro b hb
          have := (keyUpperBound_none_iff ps).mp hub b hb
          have := hps b hb
          omega
        by_cases hcarry : (p + 1) % 256 = 0
        · have hp255 : p = 255 := by omega
          subst hp255
          rw [if_pos hcarry]
          show ((decide ((255 : Nat) < q) ||
            (decide ((255 : Nat) = q) && bytesLe ps ks)) && true) = true ↔ _
          simp only [Bool.and_true, Bool.or_eq_true, Bool.and_eq_true,
            decide_eq_true_eq]
          rw [bytesLe_all255 ps ks h255 hks]
          constructor
          · rintro (h1 | ⟨he, hpre⟩)
            · omega
            · exact ⟨he, hpre⟩
          · rintro ⟨he, hpre⟩
            exact Or.inr ⟨he, hpre⟩
        · rw [if_neg hcarry]
          have hmod : (p + 1) % 256 = p + 1 := by omega
          show ((decide (p < q) || (decide (p = q) && bytesLe ps ks)) &&
            (decide (q < (p + 1) % 256) ||
              (decide (q = (p + 1) % 256) && bytesLt ks []))) = true ↔ _
          have hblt : bytesLt ks [] = false := by cases ks <;> simp [bytesLt]
          rw [hblt, hmod]
          simp only [Bool.and_false, Bool.or_false, Bool.and_eq_true,
            Bool.or_eq_true, decide_eq_true_eq]
          rw [bytesLe_all255 ps ks h255 hks]
          constructor
          · rintro ⟨hlo, hhi⟩
            rcases hlo with h1 | ⟨he, hpre⟩
            · omega
            · exact ⟨he, hpre⟩
          · rintro ⟨rfl, hpre⟩
            exact ⟨Or.inr ⟨rfl, hpre⟩, by omega⟩

/-- C5 (confirmed): `keyUpperBound` is `none` exactly when every byte of the
prefix is maximal (carry propagates off the end), and a key lies in the
half-open scan range `[pfx, keyUpperBound pfx)` (unbounded above when `none`)
exactly when the prefix is a byte-prefix of the key; consequently every key
the prefix scan visits is at least as long as the prefix, so stripping the
prefix is well defined. -/
theorem claim_C5_keyUpperBound (pfx k : List Nat)
    (hp : ∀ b ∈ pfx, b < 256) (hk : ∀ b ∈ k, b < 256) :
    (inPrefixRange pfx k = true ↔ pfx <+: k) ∧
    (keyUpperBound pfx = none ↔ ∀ b ∈ pfx, b = 255) ∧
    (inPrefixRange pfx k = true → pfx.length ≤ k.length) := by
  have hiff := inPrefixRange_iff pfx k hp hk
  refine ⟨hiff, ?_, fun h => (hiff.mp h).length_le⟩
  rw [keyUpperBound_none_iff]
  constructor
  · intro h b hb
    have h1 := h b hb
    have h2 := hp b hb
    omega
  · intro h b hb
    rw [h b hb]

/-- Witness for C5: the prefix `[1, 255]` is a byte-prefix of `[1, 255, 7]`,
so that key lies in the scan range. -/
theorem claim_C5_witness : inPrefixRange [1, 255] [1, 255, 7] = true :=
  ((claim_C5_keyUpperBound [1, 255] [1, 255, 7] (by decide) (by decide)).1).mpr
    (by decide)

/-- Witness for C4 at the identifier text `123`. -/
theorem claim_C4_witness :
    mobile2bytes [49, 50, 51] = some [123, 0, 0, 0, 0, 0, 0, 0] ∧
    [123, 0, 0, 0, 0, 0, 0, 0].length = 8 ∧
    bytes2uint64 [123, 0, 0, 0, 0, 0, 0, 0] = decimalValue [49, 50, 51] :=
  ⟨by decide, (claim_C4_mobile2bytes [49, 50, 51]).2 [123, 0, 0, 0, 0, 0, 0, 0]
    (by decide)⟩

/-! ## Claim C6: fixed-width isolation -/

theorem putUint64LE_length (v : Nat) : (putUint64LE v).length = 8 := by
  simp [putUint64LE]

theorem putUint64LE_lt256 (v : Nat) : ∀ b ∈ putUint64LE v, b < 256 := by
  intro b hb
  simp only [putUint64LE, List.mem_cons, List.not_mem_nil, or_false] at hb
  rcases hb with h | h | h | h | h | h | h | h <;> subst h <;> omega

theorem putUint64LE_inj {v1 v2 : Nat} (h1 : v1 ≤ maxUint64) (h2 : v2 ≤ maxUint64)
    (h : putUint64LE v1 = putUint64LE v2) : v1 = v2 := by
  have := bytes2uint64_putUint64LE h1
  have := bytes2uint64_putUint64LE h2
  rw [← bytes2uint64_putUint64LE h1, ← bytes2uint64_putUint64LE h2, h]

theorem prefix_append_eq_of_length {a b l : List Nat}
    (h : a <+: b ++ l) (hlen : a.length = b.length) : a = b := by
  obtain ⟨t, ht⟩ := h
  have := List.take_left a t
  rw [ht, hlen] at this
  rw [← this, List.take_left]

theorem assocKey_not_in_range {n1 n2 : Nat} (h1 : n1 ≤ maxUint64)
    (h2 : n2 ≤ maxUint64) (hne : n1 ≠ n2) (lab : List Nat)
    (hlab : ∀ b ∈ lab, b < 256) :
    inPrefixRange (putUint64LE n1) (assocKey n2 lab) = false := by
  rw [Bool.eq_false_iff]
  intro habs
  have hk : ∀ b ∈ assocKey n2 lab, b < 256 := by
    intro b hb
    unfold assocKey at hb
    rcases List.mem_append.mp hb with h | h
    · exact putUint64LE_lt256 n2 b h
    · exact hlab b h
  have hpre := (inPrefixRange_iff (putUint64LE n1) (assocKey n2 lab)
    (putUint64LE_lt256 n1) hk).mp habs
  have heq : putUint64LE n1 = putUint64LE n2 :=
    prefix_append_eq_of_length hpre
      (by rw [putUint64LE_length, putUint64LE_length])
  exact hne (putUint64LE_inj h1 h2 heq)

/-- C6 (confirmed): for distinct identifiers within 64 bits, no association
key of the second falls in the scan range of the first — the fixed 8-byte
width decides the comparison inside the encoded prefix — and the query for
the first identifier over a store holding only the second identifier's
association keys returns nothing. -/
theorem claim_C6_prefix_isolation (n1 n2 : Nat) (h1 : n1 ≤ maxUint64)
    (h2 : n2 ≤ maxUint64) (hne : n1 ≠ n2) (s : Store)
    (hs : ∀ kv ∈ s, ∃ lab, (∀ b ∈ lab, b < 256) ∧ kv.1 = assocKey n2 lab) :
    (∀ lab, (∀ b ∈ lab, b < 256) →
      inPrefixRange (putUint64LE n1) (assocKey n2 lab) = false) ∧
    FindLabelsByMobile s (putUint64LE n1) = [] := by
  refine ⟨fun lab hlab => assocKey_not_in_range h1 h2 hne lab hlab, ?_⟩
  unfold FindLabelsByMobile
  rw [List.filter_eq_nil_iff.mpr, List.map_nil]
  intro k hk
  have hk' : k ∈ s.map Prod.fst := List.mem_dedup.mp hk
  obtain ⟨kv, hkv, rfl⟩ := List.mem_map.mp hk'
  obtain ⟨lab, hlab, hkey⟩ := hs kv hkv
  rw [hkey, assocKey_not_in_range h1 h2 hne lab hlab]
  simp

/-- Witness for C6: a store holding only the association of identifier 2
with label `A` answers nothing for identifier 1. -/
theorem claim_C6_witness :
    FindLabelsByMobile [(assocKey 2 [65], [])] (putUint64LE 1) = [] :=
  (claim_C6_prefix_isolation 1 2 (by decide) (by decide) (by decide)
    [(assocKey 2 [65], [])]
    (fun kv hkv => ⟨[65], by decide, by
      simp only [List.mem_singleton] at hkv
      rw [hkv]⟩)).2

/-! ## Claims C7, C9, C10: the write path -/

theorem mem_loadWrites {lines : List (List Nat)} {label : List Nat} {o : Op}
    (h : o ∈ loadWrites lines label) :
    o.typ = OpType.opSet ∧ o.value = [] ∧
      ∃ l m, l ∈ lines ∧ mobile2bytes l = some m ∧ o = Append m label := by
  unfold loadWrites at h
  obtain ⟨l, hl, hfo⟩ := List.mem_filterMap.mp h
  obtain ⟨m, hm, rfl⟩ := Option.map_eq_some'.mp hfo
  exact ⟨rfl, rfl, l, m, hl, hm, rfl⟩

theorem applyOp_set (s : Store) (o : Op) (h : o.typ = OpType.opSet) :
    applyOp s o = dbSet s o.key o.value := by
  obtain ⟨t, k, v⟩ := o
  cases t with
  | opSet => rfl
  | opAppend => cases h

theorem applyOps_sets (ops : List Op) :
    ∀ s : Store, (∀ o ∈ ops, o.typ = OpType.opSet) →
      applyOps s ops = (ops.map (fun o => (o.key, o.value))).reverse ++ s := by
  induction ops with
  | nil => intro s _; simp [applyOps]
  | cons o ops ih =>
    intro s h
    have hstep : applyOps s (o :: ops) = applyOps (dbSet s o.key o.value) ops := by
      unfold applyOps
      rw [List.foldl_cons, applyOp_set s o (h o (by simp))]
    rw [hstep, ih (dbSet s o.key o.value) (fun o ho => h o (by simp [ho]))]
    simp [dbSet]

theorem dedup_append_sub (xs : List (List Nat)) :
    ∀ ys : List (List Nat), (∀ a ∈ xs, a ∈ ys) → (xs ++ ys).dedup = ys.dedup := by
  induction xs with
  | nil => intro ys _; rfl
  | cons x xs ih =>
    intro ys h
    show (x :: (xs ++ ys)).dedup = ys.dedup
    rw [List.dedup_cons_of_mem
      (List.mem_append.mpr (Or.inr (h x (by simp))))]
    exact ih ys (fun a ha => h a (by simp [ha]))

theorem dedup_append_self (F G : List (List Nat)) :
    (F ++ (F ++ G)).dedup = (F ++ G).dedup :=
  dedup_append_sub F (F ++ G) (fun _ ha => List.mem_append.mpr (Or.inl ha))

theorem dbGet_append_self (R s : Store) (k : List Nat) :
    dbGet (R ++ (R ++ s)) k = dbGet (R ++ s) k := by
  unfold dbGet
  rw [List.find?_append, List.find?_append]
  cases h : R.find? (fun p => p.1 == k) with
  | none => simp [h, List.find?_append]
  | some v => simp [h]

/-- C7 (confirmed): a load enqueues only unconditional `opSet` overwrites of
`encode(id) ++ label` with the empty value, so replaying the same load's
write sequence leaves every lookup and every query result of the store
unchanged: loading the same file with the same label twice is
indistinguishable from loading it once. -/
theorem claim_C7_idempotent (file : List Nat) (n : Nat) (label : List Nat)
    (s : Store) :
    (∀ k, dbGet (applyOps (applyOps s (loadWrites (scanFile file n) label))
        (loadWrites (scanFile file n) label)) k =
      dbGet (applyOps s (loadWrites (scanFile file n) label)) k) ∧
    (∀ mobile, FindLabelsByMobile
        (applyOps (applyOps s (loadWrites (scanFile file n) label))
          (loadWrites (scanFile file n) label)) mobile =
      FindLabelsByMobile (applyOps s (loadWrites (scanFile file n) label))
        mobile) := by
  have hset : ∀ o ∈ loadWrites (scanFile file n) label, o.typ = OpType.opSet :=
    fun o ho => (mem_loadWrites ho).1
  set ws := loadWrites (scanFile file n) label with hws
  have h1 : applyOps s ws = (ws.map (fun o => (o.key, o.value))).reverse ++ s :=
    applyOps_sets ws s hset
  have h2 : applyOps (applyOps s ws) ws =
      (ws.map (fun o => (o.key, o.value))).reverse ++
        ((ws.map (fun o => (o.key, o.value))).reverse ++ s) := by
    rw [applyOps_sets ws (applyOps s ws) hset, h1]
  constructor
  · intro k
    rw [h2, h1, dbGet_append_self]
  · intro mobile
    have hkeys : liveKeys (applyOps (applyOps s ws) ws) =
        liveKeys (applyOps s ws) := by
      rw [h2, h1]
      unfold liveKeys
      rw [List.map_append, List.map_append]
      exact dedup_append_self _ _
    unfold FindLabelsByMobile
    rw [hkeys]

/-! ## Claim C8: empty query result -/

theorem mobile2bytes_bytes_lt {t m : List Nat} (h : mobile2bytes t = some m) :
    ∀ b ∈ m, b < 256 := by
  unfold mobile2bytes at h
  obtain ⟨v, _, rfl⟩ := Option.map_eq_some'.mp h
  exact putUint64LE_lt256 v

/-- C8 (confirmed): querying a parseable identifier with no stored
association is not an error: the scan returns the empty label list and
`GetLabel` answers `ok` with it. -/
theorem claim_C8_empty_result (s : Store) (t m : List Nat)
    (hparse : mobile2bytes t = some m)
    (hnone : ∀ k ∈ liveKeys s, ¬m <+: k)
    (hkeys : ∀ k ∈ liveKeys s, ∀ b ∈ k, b < 256) :
    FindLabelsByMobile s m = [] ∧ GetLabel s t = some [] := by
  have hempty : FindLabelsByMobile s m = [] := by
    unfold FindLabelsByMobile
    rw [List.filter_eq_nil_iff.mpr, List.map_nil]
    intro k hk
    intro habs
    exact hnone k hk ((inPrefixRange_iff m k (mobile2bytes_bytes_lt hparse)
      (hkeys k hk)).mp habs)
  refine ⟨hempty, ?_⟩
  unfold GetLabel
  rw [hparse, Option.map_some', hempty]

/-- Witness for C8: the empty store, identifier text `123`. -/
theorem claim_C8_witness : GetLabel [] [49, 50, 51] = some [] :=
  (claim_C8_empty_result [] [49, 50, 51] [123, 0, 0, 0, 0, 0, 0, 0]
    (by decide) (by decide) (by decide)).2

/-! ## Claim C9: the noop (dry-run) flag -/

/-- C9 counterexample: with `noop` set, `LoadFile` on the single line `abc`
(which does not parse as an identifier) succeeds, reporting one line and no
writes — it never encodes or routes the line, so no `InvalidIdentifier`
error is raised on a dry run, contrary to the claim. -/
theorem claim_C9_counterexample :
    LoadFile [[97, 98, 99]] [76] true = Except.ok (1, []) ∧
    mobile2bytes [97, 98, 99] = none :=
  ⟨rfl, rfl⟩

theorem LoadFileLoop_noop (label : List Nat) (lines : List (List Nat)) :
    ∀ count ops, LoadFileLoop label true count ops lines =
      Except.ok (count + lines.length, ops) := by
  induction lines with
  | nil => intro count ops; simp [LoadFileLoop]
  | cons l ls ih =>
    intro count ops
    show LoadFileLoop label true (count + 1) ops ls = _
    rw [ih (count + 1) ops]
    congr 2
    simp
    omega

theorem LoadFileLoop_write (label : List Nat) (lines : List (List Nat)) :
    ∀ count ops, (∀ l ∈ lines, (mobile2bytes l).isSome) →
      LoadFileLoop label false count ops lines =
        Except.ok (count + lines.length, ops ++ loadWrites lines label) := by
  induction lines with
  | nil => intro count ops _; simp [LoadFileLoop, loadWrites]
  | cons l ls ih =>
    intro count ops h
    obtain ⟨m, hm⟩ := Option.isSome_iff_exists.mp (h l (by simp))
    show (match mobile2bytes l with
      | none => Except.error l
      | some m => LoadFileLoop label false (count + 1)
          (ops ++ [Append m label]) ls) = _
    rw [hm]
    show LoadFileLoop label false (count + 1) (ops ++ [Append m label]) ls = _
    rw [ih (count + 1) (ops ++ [Append m label]) (fun l hl => h l (by simp [hl]))]
    have hlw : loadWrites (l :: ls) label =
        Append m label :: loadWrites ls label := by
      unfold loadWrites
      rw [List.filterMap_cons]
      rw [hm]
      rfl
    rw [hlw]
    congr 2
    · simp; omega
    · simp

theorem LoadFileLoop_error (label : List Nat) (lines : List (List Nat)) :
    ∀ count ops bad, LoadFileLoop label false count ops lines =
        Except.error bad → bad ∈ lines ∧ mobile2bytes bad = none := by
  induction lines with
  | nil => intro count ops bad h; cases h
  | cons l ls ih =>
    intro count ops bad h
    revert h
    show (match mobile2bytes l with
      | none => Except.error l
      | some m => LoadFileLoop label false (count + 1)
          (ops ++ [Append m label]) ls) = _ → _
    cases hm : mobile2bytes l with
    | none =>
      intro h
      injection h with h
      subst h
      exact ⟨by simp, hm⟩
    | some m =>
      intro h
      obtain ⟨hmem, hbad⟩ := ih (count + 1) (ops ++ [Append m label]) bad h
      exact ⟨by simp [hmem], hbad⟩

/-- C9 amended: every delivered line is counted, but the identifier is
encoded and routed only when `noop` is off: a dry run performs no parsing and
no writes — a malformed line aborts only a non-noop load — and reports the
full line count; a non-noop load over parseable lines enqueues exactly the
`Set(encode(id) ++ label, empty)` writes, and a non-noop load fails only on
a delivered line that does not parse. -/
theorem claim_C9_amended (lines : List (List Nat)) (label : List Nat) :
    LoadFile lines label true = Except.ok (lines.length, []) ∧
    ((∀ l ∈ lines, (mobile2bytes l).isSome) →
      LoadFile lines label false =
        Except.ok (lines.length, loadWrites lines label)) ∧
    (∀ bad, LoadFile lines label false = Except.error bad →
      bad ∈ lines ∧ mobile2bytes bad = none) := by
  refine ⟨?_, fun h => ?_, fun bad h => ?_⟩
  · unfold LoadFile
    rw [LoadFileLoop_noop label lines 0 []]
    simp
  · unfold LoadFile
    rw [LoadFileLoop_write label lines 0 [] h]
    simp
  · exact LoadFileLoop_error label lines 0 [] bad h

/-- Witness for C9 at the single parseable line `123` with label `A`. -/
theorem claim_C9_witness :
    LoadFile [[49, 50, 51]] [65] true = Except.ok (1, []) ∧
    LoadFile [[49, 50, 51]] [65] false =
      Except.ok (1, loadWrites [[49, 50, 51]] [65]) :=
  ⟨(claim_C9_amended [[49, 50, 51]] [65]).1,
   (claim_C9_amended [[49, 50, 51]] [65]).2.1 (by decide)⟩

/-! ## Claim C10: only `opSet` is ever enqueued -/

/-- C10 (confirmed): both public write operations enqueue `opSet` ops —
`Append key value` enqueues `Set(key ++ value, empty)`, never an `opAppend` —
every op a load enqueues is an association key with the empty value, and on
such ops the partition worker takes only the overwrite branch, so the
`opAppend` read-modify-write branch is unreachable in this program. -/
theorem claim_C10_only_set_ops :
    (∀ key value, Append key value = ⟨OpType.opSet, key ++ value, []⟩) ∧
    (∀ key value, (Set key value).typ = OpType.opSet) ∧
    (∀ lines label o, o ∈ loadWrites lines label →
      o.typ = OpType.opSet ∧ o.value = [] ∧
      ∃ l m, l ∈ lines ∧ mobile2bytes l = some m ∧ o = Append m label) ∧
    (∀ s o, o.typ = OpType.opSet → applyOp s o = dbSet s o.key o.value) := by
  refine ⟨fun _ _ => rfl, fun _ _ => rfl, ?_, applyOp_set⟩
  intro lines label o ho
  exact mem_loadWrites ho

/-- Witness for C10: applying the op `Append [1] [2]` enqueues is the plain
overwrite of key `[1, 2]` with the empty value. -/
theorem claim_C10_witness :
    applyOp [] (Append [1] [2]) = dbSet [] [1, 2] [] :=
  claim_C10_only_set_ops.2.2.2 [] (Append [1] [2]) rfl

end BigFileReader
